import Mathlib

/-!
Verification of the mathjs build-pipeline orchestrator (gulpfile.js).

The build script is embedded shallowly: string-producing functions
(createBanner, updateVersionFile, addDeprecatedFunctions) become pure
functions on List Char, the JS String.replace-with-string-pattern
primitive becomes replaceFirst (splice at the first occurrence), the
one-shot pipeline (gulp.series registration) becomes a list of task
names executed by a sequential scheduler, and the watch task becomes a
state machine over the states of the spec (section 4.3).  Where the
deciding code lives outside this repository (the gulp task runner, the
chokidar watcher, JSON.parse, Date), the behaviour is modelled from the
spec and from the JS language definition; such definitions carry a
comment saying so.
-/

set_option maxRecDepth 4096

/-- Convert a string literal to the List Char representation used throughout. -/
def strL (s : String) : List Char := s.data

/-- The single-quote character (code 39), used in generated JS source text. -/
def qC : Char := Char.ofNat 39

/-- The newline character. -/
def nlC : Char := Char.ofNat 10

/-! ## Task names and outcomes -/

/-- The eight tasks registered in gulpfile.js.  The spec names map as:
transpile = compile, write-banner = writeBanner, generate-entries =
generateEntryFiles, patch-deprecated-symbols = addDeprecatedFunctions,
validate-docs = validate, generate-docs = generateDocs. -/
inductive TaskName
  | bundle | compile | writeBanner | generateEntryFiles
  | addDeprecatedFunctions | minify | validate | generateDocs
deriving DecidableEq, Fintype

/-- Result of running one task action (an action never yields Skipped). -/
inductive ActResult
  | success | warning | failure
deriving DecidableEq

/-- Terminal outcome of a task in a run report. -/
inductive Outcome
  | success | warning | failure | skipped
deriving DecidableEq

/-- Embed an action result into an outcome. -/
def toOutcome : ActResult → Outcome
  | ActResult.success => Outcome.success
  | ActResult.warning => Outcome.warning
  | ActResult.failure => Outcome.failure

/-- The default task registration order, from
gulp.task(default, gulp.series(bundle, compile, writeBanner,
generateEntryFiles, addDeprecatedFunctions, minify, validate,
generateDocs)) in gulpfile.js. -/
def defaultTasks : List TaskName :=
  [TaskName.bundle, TaskName.compile, TaskName.writeBanner,
   TaskName.generateEntryFiles, TaskName.addDeprecatedFunctions,
   TaskName.minify, TaskName.validate, TaskName.generateDocs]

/-- Modelled from the spec: the series scheduler of the task runner
(gulp.series is not part of this repository).  Tasks run one at a time
in list order; when a task fails, every task after it (each of which
depends on it through the series chain) ends Skipped, tasks before it
keep their own terminal outcome. -/
def runSeries (act : TaskName → ActResult) : List TaskName → List (TaskName × Outcome)
  | [] => []
  | t :: ts =>
      if act t = ActResult.failure then
        (t, Outcome.failure) :: ts.map (fun u => (u, Outcome.skipped))
      else
        (t, toOutcome (act t)) :: runSeries act ts

/-- A concrete action assignment where only the minify task fails. -/
def actW : TaskName → ActResult
  | TaskName.minify => ActResult.failure
  | _ => ActResult.success

/-- A concrete action assignment where every task succeeds. -/
def actS : TaskName → ActResult := fun _ => ActResult.success

/-- Events of a sequential execution trace: a task starts, a task reaches
a terminal outcome. -/
inductive Ev
  | start (t : TaskName)
  | finish (t : TaskName) (o : Outcome)
deriving DecidableEq

/-- Modelled from the spec: the event trace of a series run.  Each task
is started and brought to a terminal state before the next one starts;
after a failure the remaining tasks are not started. -/
def seriesTrace (act : TaskName → ActResult) : List TaskName → List Ev
  | [] => []
  | t :: ts =>
      Ev.start t :: Ev.finish t (toOutcome (act t)) ::
        (if act t = ActResult.failure then [] else seriesTrace act ts)

/-- A trace is well sequenced when it is a concatenation of
start-then-finish blocks: no task starts before the previous task
reached its terminal state. -/
inductive WellSeq : List Ev → Prop
  | nil : WellSeq []
  | block (t : TaskName) (o : Outcome) (rest : List Ev) :
      WellSeq rest → WellSeq (Ev.start t :: Ev.finish t o :: rest)

/-- The tasks started in a trace, in starting order. -/
def startedTasks (tr : List Ev) : List TaskName :=
  tr.filterMap (fun e => match e with
    | Ev.start t => some t
    | Ev.finish _ _ => none)

/-- Position of a task in a task list (length of the list if absent). -/
def idx (t : TaskName) : List TaskName → Nat
  | [] => 0
  | u :: us => if u = t then 0 else idx t us + 1

/-- Dependency relation of the default pipeline: in a series every task
transitively depends on every task registered before it. -/
def dependsOnDefault (b a : TaskName) : Prop :=
  idx a defaultTasks < idx b defaultTasks

instance : DecidablePred fun p : TaskName × TaskName => dependsOnDefault p.1 p.2 := by
  intro p
  unfold dependsOnDefault
  infer_instance

instance (b a : TaskName) : Decidable (dependsOnDefault b a) := by
  unfold dependsOnDefault
  infer_instance

/-! ## String machinery: the JS String.replace primitive -/

/-- Boolean prefix test on character lists. -/
def isPre : List Char → List Char → Bool
  | [], _ => true
  | _ :: _, [] => false
  | a :: as, b :: bs => if a = b then isPre as bs else false

/-- Prop-level prefix. -/
def Pre (a b : List Char) : Prop := ∃ t, b = a ++ t

/-- Boolean substring (occurrence) test. -/
def occursB (p : List Char) : List Char → Bool
  | [] => isPre p []
  | c :: rest => isPre p (c :: rest) || occursB p rest

/-- The JS String.replace with a string pattern and a replacement free of
dollar escapes: splice the replacement in place of the first occurrence
of the pattern, identity when the pattern does not occur. -/
def replaceFirst (p r : List Char) : List Char → List Char
  | [] => if isPre p [] then r ++ [] else []
  | c :: rest =>
      if isPre p (c :: rest) then r ++ (c :: rest).drop p.length
      else c :: replaceFirst p r rest

/-- The date placeholder token of the banner template. -/
def dateTok : List Char := strL "@@date"

/-- The version placeholder token of the banner template. -/
def verTok : List Char := strL "@@version"

/-- createBanner from gulpfile.js: read the header template, replace the
date token, then the version token.  The template, the current date
string and the version string are parameters (the code obtains them from
the header file, Date and package.json). -/
def createBanner (template today version : List Char) : List Char :=
  replaceFirst verTok version (replaceFirst dateTok today template)

/-- The content written by updateVersionFile in gulpfile.js. -/
def versionFileContent (version : List Char) : List Char :=
  strL "export const version = " ++ [qC] ++ version ++ [qC] ++ [nlC] ++
  strL "// Note: This file is automatically generated when building math.js." ++ [nlC] ++
  strL "// Changes made in this file will be overwritten." ++ [nlC]

/-- Shape test for a date string in yyyy-mm-dd form (what
Date().toISOString().substr(0, 10) produces). -/
def isYyyyMmDd : List Char → Bool
  | [y1, y2, y3, y4, d1, m1, m2, d2, a1, a2] =>
      y1.isDigit && y2.isDigit && y3.isDigit && y4.isDigit &&
      d1 = Char.ofNat 45 && m1.isDigit && m2.isDigit &&
      d2 = Char.ofNat 45 && a1.isDigit && a2.isDigit
  | _ => false

/-! ## The watch task -/

/-- VERSION from gulpfile.js: the path of the generated version marker. -/
def versionPath : List Char := strL "./src/version.js"

/-- The ignored option of the watch task, the regex matching version.js
(a regex of literal characters tests as a substring search). -/
def watchIgnored (p : List Char) : Bool := occursB (strL "version.js") p

/-- The subset of tasks re-run by each watch trigger, from
gulp.watch(files, options, gulp.parallel(bundle, compile,
addDeprecatedFunctions)) in gulpfile.js. -/
def watchSubset : List TaskName :=
  [TaskName.bundle, TaskName.compile, TaskName.addDeprecatedFunctions]

/-- States of the watch controller, from section 4.3 of the spec, plus a
stopped state reachable only by external termination. -/
inductive WState
  | idle | watching | debouncing | triggering (queued : Bool) | stopped
deriving DecidableEq

/-- Events driving the watch controller. -/
inductive WEvent
  | subscribe
  | fsEvent (path : List Char)
  | quietElapsed
  | runComplete
  | externalStop

/-- Modelled from the spec: the watch controller state machine (the
watcher internals are not part of this repository; the ignored set and
the re-run subset come from gulpfile.js).  A filesystem event on an
ignored path is not classified as a change and leaves the state
untouched; otherwise it enters or restarts Debouncing, or queues while
Triggering.  Only externalStop reaches the stopped state. -/
def watchStep (s : WState) (e : WEvent) : WState :=
  match e with
  | WEvent.fsEvent p =>
      if watchIgnored p then s
      else
        match s with
        | WState.idle => WState.idle
        | WState.watching => WState.debouncing
        | WState.debouncing => WState.debouncing
        | WState.triggering _ => WState.triggering true
        | WState.stopped => WState.stopped
  | WEvent.subscribe =>
      match s with
      | WState.idle => WState.watching
      | s2 => s2
  | WEvent.quietElapsed =>
      match s with
      | WState.debouncing => WState.triggering false
      | s2 => s2
  | WEvent.runComplete =>
      match s with
      | WState.triggering q => if q then WState.debouncing else WState.watching
      | s2 => s2
  | WEvent.externalStop => WState.stopped

/-! ## The bundle task diagnostics -/

/-- Join a list of diagnostic strings with newlines, as
info.warnings.join does. -/
def joinNL : List (List Char) → List Char
  | [] => []
  | [x] => x
  | x :: y :: rest => x ++ [nlC] ++ joinNL (y :: rest)

/-- Outcome of the bundle task callback in gulpfile.js: done(err) when
the bundler reports a fatal error, done(new Error) when the stats carry
errors, plain done() otherwise.  Warnings are only logged; they do not
change the outcome. -/
def bundleOutcome (err : Option (List Char)) (_warnings errors : List (List Char)) : Outcome :=
  match err with
  | some _ => Outcome.failure
  | none => if errors = [] then Outcome.success else Outcome.failure

/-- Log lines produced by the bundle task callback (fancy-log calls).
On the non-fatal path the code logs the joined warnings when present,
the joined errors when present, and always the bundled message. -/
def bundleLogs (err : Option (List Char)) (warnings errors : List (List Char)) : List (List Char) :=
  match err with
  | some e => [e]
  | none =>
      (if warnings = [] then []
       else [strL "Webpack warnings:" ++ [nlC] ++ joinNL warnings]) ++
      (if errors = [] then []
       else [strL "Webpack errors:" ++ [nlC] ++ joinNL errors]) ++
      [strL "bundled math.js"]

/-! ## The minify task -/

/-- Process-wide state relevant to the minify task: the working directory. -/
structure Sys where
  cwd : List Char
deriving DecidableEq

/-- Failure modes of the minify task body. -/
inductive MinifyErr
  | uglifyErr | writeMinErr | writeMapErr
deriving DecidableEq

/-- process.chdir. -/
def chdir (p : List Char) (_ : Sys) : Sys := { cwd := p }

/-- The try block of minify: uglify.minify may report an error (thrown),
then the two writeFileSync calls may throw. -/
def minifyBody (uglifyError writeMinFails writeMapFails : Bool) : Except MinifyErr Unit :=
  if uglifyError then Except.error MinifyErr.uglifyErr
  else if writeMinFails then Except.error MinifyErr.writeMinErr
  else if writeMapFails then Except.error MinifyErr.writeMapErr
  else Except.ok ()

/-- minify from gulpfile.js: save the working directory, chdir into the
dist directory, run the body, and restore the saved directory in the
finally clause on every exit path, rethrowing any failure. -/
def minifyTask (dist : List Char) (uglifyError writeMinFails writeMapFails : Bool)
    (st : Sys) : Except MinifyErr Unit × Sys :=
  let oldCwd := st.cwd
  let st1 := chdir dist st
  let res := minifyBody uglifyError writeMinFails writeMapFails
  let st2 := chdir oldCwd st1
  (res, st2)

/-! ## Reading the version from the manifest -/

/-- Error classes of the manifest read: the file read throws, JSON.parse
throws, or property access throws (on null and undefined only). -/
inductive JsErr
  | readError | parseError | typeError
deriving DecidableEq

/-- A shallow JS value: null, undefined, a primitive, or an object. -/
inductive JsVal
  | jnull
  | undef
  | jprim (s : List Char)
  | jobj (fields : List (List Char × JsVal))

/-- Property lookup in an object literal: the undefined value when the
key is absent. -/
def lookupField : List (List Char × JsVal) → List Char → JsVal
  | [], _ => JsVal.undef
  | (k, v) :: rest, key => if k = key then v else lookupField rest key

/-- JS property access: throws TypeError on null and undefined, yields
undefined on primitives, looks the key up on objects.  A missing key is
not an error. -/
def getPropJS (v : JsVal) (key : List Char) : Except JsErr JsVal :=
  match v with
  | JsVal.jnull => Except.error JsErr.typeError
  | JsVal.undef => Except.error JsErr.typeError
  | JsVal.jprim _ => Except.ok JsVal.undef
  | JsVal.jobj fs => Except.ok (lookupField fs key)

/-- getVersion from gulpfile.js:
JSON.parse(String(fs.readFileSync(package.json))).version.  The file
read result and the parser are parameters (fs and JSON.parse are
runtime collaborators); the composition and the unguarded property
access are the code under test. -/
def getVersion (readF : Except JsErr (List Char))
    (jsonParse : List Char → Except JsErr JsVal) : Except JsErr JsVal :=
  match readF with
  | Except.error e => Except.error e
  | Except.ok c =>
      match jsonParse c with
      | Except.error e => Except.error e
      | Except.ok v => getPropJS v (strL "version")

/-- A concrete stand-in for JSON.parse defined on the empty-object
source text only: JSON.parse on the two-character text consisting of an
opening and a closing curly brace yields the empty object. -/
def parseEmptyObj (c : List Char) : Except JsErr JsVal :=
  if c = strL "\x7b\x7d" then Except.ok (JsVal.jobj []) else Except.error JsErr.parseError

/-! ## The patch-deprecated-symbols task -/

/-- One alias statement: exports[name] = exports.target with a trailing
newline, as built in addDeprecatedFunctions. -/
def aliasLine (name target : List Char) : List Char :=
  strL "exports[" ++ [qC] ++ name ++ [qC] ++ strL "] = exports." ++ target ++ strL ";" ++ [nlC]

/-- The four alias statements appended by addDeprecatedFunctions, in
source order: var, typeof, eval, import. -/
def deprecatedSuffix : List Char :=
  aliasLine (strL "var") (strL "deprecatedVar") ++
  aliasLine (strL "typeof") (strL "deprecatedTypeof") ++
  aliasLine (strL "eval") (strL "deprecatedEval") ++
  aliasLine (strL "import") (strL "deprecatedImport")

/-- addDeprecatedFunctions from gulpfile.js: rewrite the compiled entry
file to its prior content, a blank separator, and the four alias
statements. -/
def addDeprecatedFunctions (code : List Char) : List Char :=
  code ++ [nlC, nlC] ++ deprecatedSuffix

/-- Separation of a pattern p from every suffix of a pattern q: no
suffix of q is a prefix of p and p is a prefix of no suffix of q.  Two
patterns separated in both directions can never occupy overlapping
ranges of the same string. -/
def SepAt (p q : List Char) : Prop :=
  ∀ j, j < q.length → ¬ Pre (q.drop j) p ∧ ¬ Pre p (q.drop j)

/-- Boolean check for SepAt on concrete patterns. -/
def sepB (p q : List Char) : Bool :=
  (List.range q.length).all fun j => !(isPre (q.drop j) p) && !(isPre p (q.drop j))

/-- No occurrence of the pattern p starts inside the segment w when w is
followed by b. -/
def NoMatchIn (w b p : List Char) : Prop :=
  ∀ k, k < w.length → ¬ Pre p (w.drop k ++ b)

/-! # Helper lemmas -/

lemma appLeftCancel (x : List Char) : ∀ {a b : List Char}, x ++ a = x ++ b → a = b := by
  induction x with
  | nil => intro a b h; simpa using h
  | cons c cs ih =>
      intro a b h
      rw [List.cons_append, List.cons_append] at h
      injection h with _ h2
      exact ih h2

lemma preApp (a z : List Char) : Pre a (a ++ z) := ⟨z, rfl⟩

lemma preRefl (a : List Char) : Pre a a := ⟨[], by simp⟩

lemma preExt {a b : List Char} (z : List Char) (h : Pre a b) : Pre a (b ++ z) := by
  obtain ⟨t, rfl⟩ := h
  exact ⟨t ++ z, by simp⟩

lemma preLen {a b : List Char} (h : Pre a b) : a.length ≤ b.length := by
  obtain ⟨t, rfl⟩ := h
  simp

lemma preCons {x y : Char} {xs ys : List Char} :
    Pre (x :: xs) (y :: ys) ↔ x = y ∧ Pre xs ys := by
  constructor
  · rintro ⟨t, ht⟩
    rw [List.cons_append] at ht
    injection ht with h1 h2
    exact ⟨h1.symm, t, h2⟩
  · rintro ⟨rfl, t, rfl⟩
    exact ⟨t, rfl⟩

lemma preNilNot {x : Char} {xs : List Char} : ¬ Pre (x :: xs) [] := by
  rintro ⟨t, ht⟩
  simp at ht

lemma isPre_iff : ∀ a b : List Char, isPre a b = true ↔ Pre a b := by
  intro a
  induction a with
  | nil => intro b; simp [isPre, Pre]
  | cons x xs ih =>
      intro b
      cases b with
      | nil =>
          simp only [isPre, Bool.false_eq_true, false_iff]
          exact preNilNot
      | cons y ys =>
          rw [preCons]
          by_cases hxy : x = y
          · simp [isPre, hxy, ih ys]
          · simp [isPre, hxy]

lemma isPre_false {a b : List Char} (h : isPre a b = false) : ¬ Pre a b := by
  intro hp
  rw [← isPre_iff] at hp
  rw [h] at hp
  cases hp

lemma isPre_eq_false_of_not {a b : List Char} (h : ¬ Pre a b) : isPre a b = false := by
  cases he : isPre a b
  · rfl
  · exact absurd ((isPre_iff a b).mp he) h

lemma preOr : ∀ a b c : List Char, Pre a c → Pre b c → Pre a b ∨ Pre b a := by
  intro a
  induction a with
  | nil => intro b c _ _; exact Or.inl ⟨b, rfl⟩
  | cons x xs ih =>
      intro b c h1 h2
      cases b with
      | nil => exact Or.inr ⟨x :: xs, rfl⟩
      | cons y ys =>
          obtain ⟨t1, rfl⟩ := h1
          obtain ⟨t2, h2⟩ := h2
          rw [List.cons_append, List.cons_append] at h2
          injection h2 with hxy hrest
          have hys : Pre ys (xs ++ t1) := ⟨t2, hrest⟩
          rcases ih ys (xs ++ t1) (preApp xs t1) hys with h | h
          · exact Or.inl (preCons.mpr ⟨hxy, h⟩)
          · exact Or.inr (preCons.mpr ⟨hxy.symm, h⟩)

lemma preCancel (x : List Char) {s t : List Char} (h : Pre (x ++ s) (x ++ t)) : Pre s t := by
  obtain ⟨u, hu⟩ := h
  rw [List.append_assoc] at hu
  exact ⟨u, appLeftCancel x hu⟩

lemma dropNe {l : List Char} {k : Nat} (h : k < l.length) : l.drop k ≠ [] := by
  intro he
  have hl := congrArg List.length he
  simp [List.length_drop] at hl
  omega

lemma dropHead {u : List Char} {k : Nat} (h : k < u.length) :
    ∃ c cs, u.drop k = c :: cs ∧ c ∈ u := by
  cases hd : u.drop k with
  | nil => exact absurd hd (dropNe h)
  | cons c cs =>
      refine ⟨c, cs, rfl, ?_⟩
      have hu := List.take_append_drop k u
      rw [hd] at hu
      rw [← hu]
      exact List.mem_append_right _ (List.mem_cons_self c cs)

lemma dropConsTail {l : List Char} {j : Nat} {x : Char} {xs : List Char}
    (h : l.drop j = x :: xs) : l.drop (j + 1) = xs := by
  have h2 := List.drop_drop 1 j l
  rw [h] at h2
  simp at h2
  exact h2.symm

lemma dropAppLe {a : List Char} (u : List Char) {k : Nat} (h : k ≤ a.length) :
    (a ++ u).drop k = a.drop k ++ u := by
  rw [List.drop_append_eq_append_drop, Nat.sub_eq_zero_of_le h]
  rfl

lemma occursB_iff {p : List Char} : ∀ s : List Char,
    occursB p s = true ↔ ∃ x y, s = x ++ p ++ y := by
  intro s
  induction s with
  | nil =>
      simp only [occursB]
      rw [isPre_iff]
      constructor
      · rintro ⟨t, ht⟩
        refine ⟨[], t, ?_⟩
        simpa using ht
      · rintro ⟨x, y, hxy⟩
        have hx := hxy.symm
        rw [List.append_assoc] at hx
        rcases List.append_eq_nil.mp hx with ⟨hx1, hx2⟩
        rcases List.append_eq_nil.mp hx2 with ⟨hp, hy⟩
        exact ⟨[], by simp [hp]⟩
  | cons c rest ih =>
      simp only [occursB, Bool.or_eq_true]
      rw [isPre_iff, ih]
      constructor
      · rintro (⟨t, ht⟩ | ⟨x, y, hxy⟩)
        · exact ⟨[], t, by simpa using ht⟩
        · exact ⟨c :: x, y, by simp [hxy]⟩
      · rintro ⟨x, y, hxy⟩
        cases x with
        | nil =>
            refine Or.inl ⟨y, ?_⟩
            simpa using hxy
        | cons x0 xs =>
            rw [List.cons_append, List.cons_append] at hxy
            injection hxy with h1 h2
            exact Or.inr ⟨xs, y, h2⟩

lemma occursB_of_pre {p s : List Char} (h : Pre p s) : occursB p s = true := by
  obtain ⟨t, rfl⟩ := h
  rw [occursB_iff]
  exact ⟨[], t, by simp⟩

lemma occursB_cons {p : List Char} (c : Char) {rest : List Char}
    (h : occursB p rest = true) : occursB p (c :: rest) = true := by
  simp [occursB, h]

lemma occursB_append_left {p a : List Char} (z : List Char)
    (h : occursB p a = true) : occursB p (a ++ z) = true := by
  rw [occursB_iff] at h ⊢
  obtain ⟨x, y, rfl⟩ := h
  exact ⟨x, y ++ z, by simp⟩

lemma occursB_append_right {p b : List Char} (z : List Char)
    (h : occursB p b = true) : occursB p (z ++ b) = true := by
  rw [occursB_iff] at h ⊢
  obtain ⟨x, y, rfl⟩ := h
  exact ⟨z ++ x, y, by simp⟩

lemma occursB_len {p s : List Char} (h : occursB p s = true) :
    p.length ≤ s.length := by
  rw [occursB_iff] at h
  obtain ⟨x, y, rfl⟩ := h
  simp
  omega

lemma rf_not_occ {p r : List Char} : ∀ {s : List Char},
    occursB p s = false → replaceFirst p r s = s := by
  intro s
  induction s with
  | nil =>
      intro h
      simp only [occursB] at h
      simp [replaceFirst, h]
  | cons c rest ih =>
      intro h
      have h1 : isPre p (c :: rest) = false ∧ occursB p rest = false := by
        simpa [occursB] using h
      simp [replaceFirst, h1.1, ih h1.2]

lemma rf_pre_append (p r t : List Char) : replaceFirst p r (p ++ t) = r ++ t := by
  cases p with
  | nil =>
      cases t with
      | nil => simp [replaceFirst, isPre]
      | cons c rest => simp [replaceFirst, isPre]
  | cons p0 ps =>
      have hpre : isPre (p0 :: ps) ((p0 :: ps) ++ t) = true :=
        (isPre_iff _ _).mpr (preApp _ t)
      rw [List.cons_append] at hpre
      rw [List.cons_append]
      simp only [replaceFirst, hpre, if_true]
      rw [← List.cons_append, List.drop_left]

lemma rf_occ_split {p r : List Char} : ∀ {s : List Char},
    occursB p s = true →
    ∃ x y, s = x ++ p ++ y ∧ replaceFirst p r s = x ++ r ++ y := by
  intro s
  induction s with
  | nil =>
      intro h
      simp only [occursB] at h
      obtain ⟨t, ht⟩ := (isPre_iff _ _).mp h
      have hx := ht.symm
      rcases List.append_eq_nil.mp hx with ⟨hp, hty⟩
      refine ⟨[], [], by simp [hp], ?_⟩
      subst hp
      subst hty
      simp [replaceFirst, isPre]
  | cons c rest ih =>
      intro h
      by_cases hpre : isPre p (c :: rest) = true
      · obtain ⟨t, ht⟩ := (isPre_iff _ _).mp hpre
        refine ⟨[], t, by simpa using ht, ?_⟩
        rw [ht, rf_pre_append]
        simp
      · have h2 : occursB p rest = true := by
          simp only [occursB, Bool.or_eq_true] at h
          tauto
        obtain ⟨x, y, hxy, hrf⟩ := ih h2
        have hprefalse : isPre p (c :: rest) = false := by
          cases hq : isPre p (c :: rest)
          · rfl
          · exact absurd hq hpre
        refine ⟨c :: x, y, by simp [hxy], ?_⟩
        simp [replaceFirst, hprefalse, hrf]

lemma sepB_to {p q : List Char} (h : sepB p q = true) : SepAt p q := by
  intro j hj
  rw [sepB, List.all_eq_true] at h
  have h2 := h j (List.mem_range.mpr hj)
  have h3 : isPre (q.drop j) p = false ∧ isPre p (q.drop j) = false := by
    simpa using h2
  exact ⟨isPre_false h3.1, isPre_false h3.2⟩

lemma noMatchIn_of_sep {p q : List Char} (b : List Char) (h : SepAt p q) :
    NoMatchIn q b p := by
  intro k hk hPre
  rcases preOr _ _ _ hPre (preApp (q.drop k) b) with hc | hc
  · exact (h k hk).2 hc
  · exact (h k hk).1 hc

lemma noMatchIn_of_chars {p u : List Char} (b : List Char) (hp : p ≠ [])
    (hch : ∀ c ∈ u, c ∉ p) : NoMatchIn u b p := by
  intro k hk hPre
  obtain ⟨c, cs, hdrop, hcmem⟩ := dropHead hk
  cases p with
  | nil => exact hp rfl
  | cons p0 pt =>
      rw [hdrop, List.cons_append, preCons] at hPre
      have hc0 : c = p0 := hPre.1.symm
      subst hc0
      exact hch c hcmem (List.mem_cons_self c pt)

lemma rf_append_noMatch {p r : List Char} : ∀ {w b : List Char},
    NoMatchIn w b p →
    replaceFirst p r (w ++ b) = w ++ replaceFirst p r b := by
  intro w
  induction w with
  | nil => intro b _; simp
  | cons c w2 ih =>
      intro b h
      have h0 : ¬ Pre p ((c :: w2) ++ b) := by
        have := h 0 (by simp)
        simpa using this
      have h0b : isPre p (c :: (w2 ++ b)) = false := by
        apply isPre_eq_false_of_not
        rw [← List.cons_append]
        exact h0
      rw [List.cons_append]
      simp only [replaceFirst, h0b]
      simp only [Bool.false_eq_true, if_false, List.cons_append, List.cons.injEq, true_and]
      apply ih
      intro k hk
      have := h (k + 1) (by simp; omega)
      simpa using this

lemma noMatchIn_left_append {p u a : List Char} (b : List Char) (hp : p ≠ [])
    (hu : u ≠ []) (hch : ∀ c ∈ u, c ∉ p) (ha : occursB p a = false) :
    NoMatchIn (a ++ u) b p := by
  intro k hk
  by_cases hka : k < a.length
  · rw [dropAppLe u (Nat.le_of_lt hka)]
    intro hPre
    rw [List.append_assoc] at hPre
    have hnotocc : ¬ occursB p a = true := by
      rw [ha]
      simp
    rcases preOr _ _ _ hPre (preApp (a.drop k) (u ++ b)) with hc | hc
    · apply hnotocc
      obtain ⟨t, ht⟩ := hc
      rw [occursB_iff]
      refine ⟨a.take k, t, ?_⟩
      rw [List.append_assoc, ← ht]
      exact (List.take_append_drop k a).symm
    · obtain ⟨pt, hpt⟩ := hc
      rw [hpt] at hPre
      have hptu : Pre pt (u ++ b) := preCancel _ hPre
      cases pt with
      | nil =>
          apply hnotocc
          rw [occursB_iff]
          refine ⟨a.take k, [], ?_⟩
          rw [hpt]
          simp [List.take_append_drop]
      | cons c0 ct =>
          cases u with
          | nil => exact hu rfl
          | cons u0 ut =>
              rw [List.cons_append, preCons] at hptu
              have hc0 : c0 ∈ p := by
                rw [hpt]
                exact List.mem_append_right _ (List.mem_cons_self c0 ct)
              have hc0u : c0 = u0 := hptu.1
              subst hc0u
              exact hch c0 (List.mem_cons_self c0 ut) hc0
  · have hak : a.length ≤ k := Nat.le_of_not_lt hka
    have hj : k - a.length < u.length := by
      have hlen : k < a.length + u.length := by
        simpa [List.length_append] using hk
      omega
    have had : a.drop k = [] := by
      have hlen := List.length_drop k a
      cases hd : a.drop k with
      | nil => rfl
      | cons x xs =>
          rw [hd] at hlen
          simp at hlen
          omega
    rw [List.drop_append_eq_append_drop, had, List.nil_append]
    exact noMatchIn_of_chars b hp hch _ hj

lemma rf_append_occurs {p r : List Char} : ∀ {a : List Char} (z : List Char),
    occursB p a = true →
    replaceFirst p r (a ++ z) = replaceFirst p r a ++ z := by
  intro a
  induction a with
  | nil =>
      intro z h
      simp only [occursB] at h
      obtain ⟨t, ht⟩ := (isPre_iff _ _).mp h
      have hp : p = [] := (List.append_eq_nil.mp ht.symm).1
      subst hp
      cases z with
      | nil => simp [replaceFirst, isPre]
      | cons c rest => simp [replaceFirst, isPre]
  | cons c a2 ih =>
      intro z h
      by_cases hpre : isPre p (c :: a2) = true
      · obtain ⟨t, ht⟩ := (isPre_iff _ _).mp hpre
        rw [ht, List.append_assoc, rf_pre_append, rf_pre_append, List.append_assoc]
      · have h2 : occursB p a2 = true := by
          simp only [occursB, Bool.or_eq_true] at h
          tauto
        have hprefalse : isPre p (c :: a2) = false := by
          cases hq : isPre p (c :: a2)
          · rfl
          · exact absurd hq hpre
        have hnotpre : isPre p (c :: (a2 ++ z)) = false := by
          apply isPre_eq_false_of_not
          intro hc
          rw [← List.cons_append] at hc
          rcases preOr _ _ _ hc (preApp (c :: a2) z) with hd | hd
          · exact isPre_false hprefalse hd
          · have hl1 := preLen hd
            have hl2 := occursB_len h2
            simp at hl1
            omega
        rw [List.cons_append]
        simp only [replaceFirst, hnotpre, hprefalse]
        simp only [Bool.false_eq_true, if_false, List.cons_append, List.cons.injEq, true_and]
        exact ih z h2

lemma occB_split_base {p b : List Char} : ∀ {u : List Char},
    NoMatchIn u b p → occursB p (u ++ b) = true → occursB p b = true := by
  intro u
  induction u with
  | nil => intro _ h; simpa using h
  | cons c u2 ih =>
      intro hnm h
      rw [List.cons_append] at h
      simp only [occursB, Bool.or_eq_true] at h
      rcases h with h | h
      · exfalso
        have h0 := hnm 0 (by simp)
        simp only [List.drop_zero] at h0
        apply h0
        rw [List.cons_append]
        exact (isPre_iff _ _).mp h
      · apply ih _ h
        intro k hk
        have := hnm (k + 1) (by simp; omega)
        simpa using this

lemma occB_split {p u : List Char} (h1 : SepAt p u) (h2 : SepAt u p) :
    ∀ {a b : List Char}, occursB p (a ++ (u ++ b)) = true →
    occursB p a = true ∨ occursB p b = true := by
  intro a
  induction a with
  | nil =>
      intro b h
      simp only [List.nil_append] at h
      exact Or.inr (occB_split_base (noMatchIn_of_sep b h1) h)
  | cons c a2 ih =>
      intro b h
      rw [List.cons_append] at h
      simp only [occursB, Bool.or_eq_true] at h
      rcases h with h | h
      · have hPre := (isPre_iff _ _).mp h
        rw [← List.cons_append] at hPre
        rcases preOr _ _ _ hPre (preApp (c :: a2) (u ++ b)) with hd | hd
        · exact Or.inl (occursB_of_pre hd)
        · obtain ⟨pt, hpt⟩ := hd
          have hptu : Pre pt (u ++ b) := by
            rw [hpt] at hPre
            exact preCancel _ hPre
          cases pt with
          | nil =>
              refine Or.inl (occursB_of_pre ?_)
              rw [hpt]
              simpa using preRefl (c :: a2)
          | cons q0 qt =>
              exfalso
              have hlen : (c :: a2).length < p.length := by
                rw [hpt]
                simp
              have hdrop : p.drop (c :: a2).length = q0 :: qt := by
                rw [hpt]
                exact List.drop_left _ _
              rcases preOr _ _ _ hptu (preApp u b) with he | he
              · rw [← hdrop] at he
                exact (h2 _ hlen).1 he
              · rw [← hdrop] at he
                exact (h2 _ hlen).2 he
      · rcases ih h with hl | hr
        · exact Or.inl (occursB_cons c hl)
        · exact Or.inr hr

lemma preNil (x : List Char) : Pre [] x := ⟨x, by simp⟩

lemma memDropHead {l : List Char} {j : Nat} {x : Char} {xs : List Char}
    (h : l.drop j = x :: xs) : x ∈ l := by
  have h5 := List.take_append_drop j l
  rw [h] at h5
  rw [← h5]
  exact List.mem_append_right _ (List.mem_cons_self x xs)

lemma pgen {p1 r1 p2 : List Char} (hp1 : p1 ≠ []) (hr1 : r1 ≠ [])
    (hch : ∀ c ∈ r1, c ∉ p2) (hsep : SepAt p1 p2) :
    ∀ (s : List Char) (j : Nat), j ≤ p2.length →
    (Pre (p2.drop j) (replaceFirst p1 r1 s) ↔ Pre (p2.drop j) s) := by
  intro s
  induction s with
  | nil =>
      intro j _
      cases p1 with
      | nil => exact absurd rfl hp1
      | cons a as => simp [replaceFirst, isPre]
  | cons c rest ih =>
      intro j hj
      by_cases hpre : isPre p1 (c :: rest) = true
      · obtain ⟨t, ht⟩ := (isPre_iff _ _).mp hpre
        rw [ht, rf_pre_append]
        cases hq : p2.drop j with
        | nil => constructor <;> intro _ <;> exact preNil _
        | cons q0 qt =>
            have hjlt : j < p2.length := by
              have hl := congrArg List.length hq
              simp [List.length_drop] at hl
              omega
            have hq0 : q0 ∈ p2 := memDropHead hq
            constructor
            · intro hPre
              exfalso
              rcases preOr _ _ _ hPre (preApp r1 t) with hc | hc
              · cases r1 with
                | nil => exact hr1 rfl
                | cons r0 rt =>
                    rw [preCons] at hc
                    have : q0 = r0 := hc.1
                    subst this
                    exact hch q0 (List.mem_cons_self q0 rt) hq0
              · cases r1 with
                | nil => exact hr1 rfl
                | cons r0 rt =>
                    rw [preCons] at hc
                    have hr0 : r0 = q0 := hc.1
                    have : r0 ∈ p2 := by
                      rw [hr0]
                      exact hq0
                    exact hch r0 (List.mem_cons_self r0 rt) this
            · intro hPre
              exfalso
              rcases preOr _ _ _ hPre (preApp p1 t) with hc | hc
              · rw [← hq] at hc
                exact (hsep j hjlt).1 hc
              · rw [← hq] at hc
                exact (hsep j hjlt).2 hc
      · have hprefalse : isPre p1 (c :: rest) = false := by
          cases hq2 : isPre p1 (c :: rest)
          · rfl
          · exact absurd hq2 hpre
        have e1 : replaceFirst p1 r1 (c :: rest) = c :: replaceFirst p1 r1 rest := by
          simp [replaceFirst, hprefalse]
        rw [e1]
        cases hq : p2.drop j with
        | nil => constructor <;> intro _ <;> exact preNil _
        | cons q0 qt =>
            have hqt : p2.drop (j + 1) = qt := dropConsTail hq
            have hjlt : j < p2.length := by
              have hl := congrArg List.length hq
              simp [List.length_drop] at hl
              omega
            rw [preCons, preCons]
            have ihr := ih (j + 1) (by omega)
            rw [hqt] at ihr
            rw [ihr]

lemma rf_comm {p1 r1 p2 r2 : List Char} (hp1 : p1 ≠ []) (hp2 : p2 ≠ [])
    (hr1 : r1 ≠ []) (hr2 : r2 ≠ [])
    (hc12 : ∀ c ∈ r1, c ∉ p2) (hc21 : ∀ c ∈ r2, c ∉ p1)
    (hs1 : SepAt p2 p1) (hs2 : SepAt p1 p2) :
    ∀ s : List Char,
      replaceFirst p2 r2 (replaceFirst p1 r1 s) =
      replaceFirst p1 r1 (replaceFirst p2 r2 s) := by
  intro s
  induction s with
  | nil =>
      have h1 : replaceFirst p1 r1 [] = [] := by
        cases p1 with
        | nil => exact absurd rfl hp1
        | cons a as => simp [replaceFirst, isPre]
      have h2 : replaceFirst p2 r2 [] = [] := by
        cases p2 with
        | nil => exact absurd rfl hp2
        | cons a as => simp [replaceFirst, isPre]
      rw [h1, h2, h1]
  | cons c rest ih =>
      by_cases hb1 : isPre p1 (c :: rest) = true
      · obtain ⟨t, ht⟩ := (isPre_iff _ _).mp hb1
        rw [ht, rf_pre_append, rf_append_noMatch (noMatchIn_of_chars t hp2 hc12),
          rf_append_noMatch (noMatchIn_of_sep t hs1), rf_pre_append]
      · by_cases hb2 : isPre p2 (c :: rest) = true
        · obtain ⟨t, ht⟩ := (isPre_iff _ _).mp hb2
          rw [ht, rf_append_noMatch (noMatchIn_of_sep t hs2), rf_pre_append,
            rf_pre_append, rf_append_noMatch (noMatchIn_of_chars t hp1 hc21)]
        · have hb1f : isPre p1 (c :: rest) = false := by
            cases hq : isPre p1 (c :: rest)
            · rfl
            · exact absurd hq hb1
          have hb2f : isPre p2 (c :: rest) = false := by
            cases hq : isPre p2 (c :: rest)
            · rfl
            · exact absurd hq hb2
          have e1 : replaceFirst p1 r1 (c :: rest) = c :: replaceFirst p1 r1 rest := by
            simp [replaceFirst, hb1f]
          have e2 : replaceFirst p2 r2 (c :: rest) = c :: replaceFirst p2 r2 rest := by
            simp [replaceFirst, hb2f]
          rw [e1, e2]
          have hg1 : ¬ Pre p2 (replaceFirst p1 r1 (c :: rest)) := by
            have hgen := pgen hp1 hr1 hc12 hs2 (c :: rest) 0 (Nat.zero_le _)
            simp only [List.drop_zero] at hgen
            rw [hgen]
            exact isPre_false hb2f
          have hg1b : isPre p2 (c :: replaceFirst p1 r1 rest) = false := by
            apply isPre_eq_false_of_not
            rw [← e1]
            exact hg1
          have hg2 : ¬ Pre p1 (replaceFirst p2 r2 (c :: rest)) := by
            have hgen := pgen hp2 hr2 hc21 hs1 (c :: rest) 0 (Nat.zero_le _)
            simp only [List.drop_zero] at hgen
            rw [hgen]
            exact isPre_false hb1f
          have hg2b : isPre p1 (c :: replaceFirst p2 r2 rest) = false := by
            apply isPre_eq_false_of_not
            rw [← e2]
            exact hg2
          have e3 : replaceFirst p2 r2 (c :: replaceFirst p1 r1 rest) =
              c :: replaceFirst p2 r2 (replaceFirst p1 r1 rest) := by
            simp [replaceFirst, hg1b]
          have e4 : replaceFirst p1 r1 (c :: replaceFirst p2 r2 rest) =
              c :: replaceFirst p1 r1 (replaceFirst p2 r2 rest) := by
            simp [replaceFirst, hg2b]
          rw [e3, e4, ih]

lemma renderDecomp {p1 r1 p2 r2 t : List Char} (hp2 : p2 ≠ []) (hr1 : r1 ≠ [])
    (hch1 : ∀ c ∈ r1, c ∉ p2) (hs1 : SepAt p2 p1) (hs2 : SepAt p1 p2)
    (h1 : occursB p1 t = true) (h2 : occursB p2 t = true) :
    ∃ a m b,
      (t = a ++ (p1 ++ (m ++ (p2 ++ b))) ∧
       replaceFirst p2 r2 (replaceFirst p1 r1 t) = a ++ (r1 ++ (m ++ (r2 ++ b)))) ∨
      (t = a ++ (p2 ++ (m ++ (p1 ++ b))) ∧
       replaceFirst p2 r2 (replaceFirst p1 r1 t) = a ++ (r2 ++ (m ++ (r1 ++ b)))) := by
  obtain ⟨a, b, hab, hrf⟩ := rf_occ_split (r := r1) h1
  by_cases hA : occursB p2 a = true
  · obtain ⟨a1, a2, ha12, hrfa⟩ := rf_occ_split (r := r2) hA
    refine ⟨a1, a2, b, Or.inr ⟨?_, ?_⟩⟩
    · rw [hab, ha12]
      simp [List.append_assoc]
    · rw [hrf, List.append_assoc, rf_append_occurs _ hA, hrfa]
      simp [List.append_assoc]
  · have hAfalse : occursB p2 a = false := by
      cases hq : occursB p2 a
      · rfl
      · exact absurd hq hA
    have hb2 : occursB p2 b = true := by
      have hsplit := occB_split hs1 hs2 (a := a) (b := b) ?side
      case side =>
        rw [hab, List.append_assoc] at h2
        exact h2
      rcases hsplit with h | h
      · exact absurd h hA
      · exact h
    obtain ⟨b1, b2, hb12, hrfb⟩ := rf_occ_split (r := r2) hb2
    refine ⟨a, b1, b2, Or.inl ⟨?_, ?_⟩⟩
    · rw [hab, hb12]
      simp [List.append_assoc]
    · rw [hrf]
      have hnm : NoMatchIn (a ++ r1) b p2 := noMatchIn_left_append b hp2 hr1 hch1 hAfalse
      rw [List.append_assoc] at hrf
      calc replaceFirst p2 r2 (a ++ r1 ++ b)
          = (a ++ r1) ++ replaceFirst p2 r2 b := rf_append_noMatch hnm
        _ = (a ++ r1) ++ (b1 ++ r2 ++ b2) := by rw [hrfb]
        _ = a ++ (r1 ++ (b1 ++ (r2 ++ b2))) := by simp [List.append_assoc]

lemma toOutcome_ne_skipped (a : ActResult) : toOutcome a ≠ Outcome.skipped := by
  cases a <;> simp [toOutcome]

lemma toOutcome_failure_iff (a : ActResult) :
    toOutcome a = Outcome.failure ↔ a = ActResult.failure := by
  cases a <;> simp [toOutcome]

lemma idx_cons_self (t : TaskName) (ts : List TaskName) : idx t (t :: ts) = 0 := by
  simp [idx]

lemma idx_cons_ne {u t : TaskName} (ts : List TaskName) (h : u ≠ t) :
    idx t (u :: ts) = idx t ts + 1 := by
  simp [idx, h]

lemma runSeries_head_failure {act : TaskName → ActResult} {t A : TaskName}
    {ts2 : List TaskName} (hf : act t = ActResult.failure)
    (h : (A, Outcome.failure) ∈ runSeries act (t :: ts2)) : A = t := by
  simp only [runSeries, if_pos hf] at h
  rcases List.mem_cons.mp h with h | h
  · exact congrArg Prod.fst h
  · exfalso
    simp only [List.mem_map] at h
    obtain ⟨u, _, heq⟩ := h
    have := congrArg Prod.snd heq
    simp at this

lemma runSeries_tail_failure {act : TaskName → ActResult} {t A : TaskName}
    {ts2 : List TaskName} (hf : ¬ act t = ActResult.failure)
    (h : (A, Outcome.failure) ∈ runSeries act (t :: ts2)) :
    (A, Outcome.failure) ∈ runSeries act ts2 := by
  simp only [runSeries, if_neg hf] at h
  rcases List.mem_cons.mp h with h | h
  · exfalso
    have h2 : toOutcome (act t) = Outcome.failure := (congrArg Prod.snd h).symm
    exact hf ((toOutcome_failure_iff (act t)).mp h2)
  · exact h

lemma mem_runSeries_failure {act : TaskName → ActResult} {A : TaskName} :
    ∀ {ts : List TaskName}, (A, Outcome.failure) ∈ runSeries act ts →
    act A = ActResult.failure ∧ A ∈ ts := by
  intro ts
  induction ts with
  | nil => intro h; simp [runSeries] at h
  | cons t ts2 ih =>
      intro h
      by_cases hf : act t = ActResult.failure
      · have hAt := runSeries_head_failure hf h
        subst hAt
        exact ⟨hf, List.mem_cons_self _ _⟩
      · obtain ⟨ha, hmem⟩ := ih (runSeries_tail_failure hf h)
        exact ⟨ha, List.mem_cons_of_mem t hmem⟩

lemma runSeries_skipped {act : TaskName → ActResult} {A : TaskName} :
    ∀ {ts : List TaskName}, ts.Nodup →
    (A, Outcome.failure) ∈ runSeries act ts →
    ∀ B ∈ ts, idx A ts < idx B ts →
    (B, Outcome.skipped) ∈ runSeries act ts := by
  intro ts
  induction ts with
  | nil => intro _ h; simp [runSeries] at h
  | cons t ts2 ih =>
      intro hnd h B hB hlt
      have hnd2 : ts2.Nodup := (List.nodup_cons.mp hnd).2
      have htni : t ∉ ts2 := (List.nodup_cons.mp hnd).1
      by_cases hf : act t = ActResult.failure
      · have hAt := runSeries_head_failure hf h
        subst hAt
        have hBA : B ≠ A := by
          intro he
          subst he
          rw [idx_cons_self] at hlt
          exact Nat.not_lt_zero _ hlt
        have hBmem : B ∈ ts2 := by
          rcases List.mem_cons.mp hB with h | h
          · exact absurd h hBA
          · exact h
        simp only [runSeries, if_pos hf]
        apply List.mem_cons_of_mem
        simp only [List.mem_map]
        exact ⟨B, hBmem, rfl⟩
      · have hA2 := runSeries_tail_failure hf h
        have hAts2 : A ∈ ts2 := (mem_runSeries_failure hA2).2
        have hAt : A ≠ t := fun he => htni (he ▸ hAts2)
        have hBt : B ≠ t := by
          intro he
          subst he
          rw [idx_cons_self] at hlt
          exact Nat.not_lt_zero _ hlt
        have hBmem : B ∈ ts2 := by
          rcases List.mem_cons.mp hB with h | h
          · exact absurd h hBt
          · exact h
        have hlt2 : idx A ts2 < idx B ts2 := by
          rw [idx_cons_ne ts2 (Ne.symm hAt), idx_cons_ne ts2 (Ne.symm hBt)] at hlt
          omega
        simp only [runSeries, if_neg hf]
        exact List.mem_cons_of_mem _ (ih hnd2 hA2 B hBmem hlt2)

lemma runSeries_before {act : TaskName → ActResult} {A : TaskName} :
    ∀ {ts : List TaskName}, ts.Nodup →
    (A, Outcome.failure) ∈ runSeries act ts →
    ∀ C ∈ ts, idx C ts < idx A ts →
    (C, toOutcome (act C)) ∈ runSeries act ts ∧ act C ≠ ActResult.failure := by
  intro ts
  induction ts with
  | nil => intro _ h; simp [runSeries] at h
  | cons t ts2 ih =>
      intro hnd h C hC hlt
      have hnd2 : ts2.Nodup := (List.nodup_cons.mp hnd).2
      have htni : t ∉ ts2 := (List.nodup_cons.mp hnd).1
      by_cases hf : act t = ActResult.failure
      · exfalso
        have hAt := runSeries_head_failure hf h
        subst hAt
        rw [idx_cons_self] at hlt
        exact Nat.not_lt_zero _ hlt
      · have hA2 := runSeries_tail_failure hf h
        have hAts2 : A ∈ ts2 := (mem_runSeries_failure hA2).2
        have hAt : A ≠ t := fun he => htni (he ▸ hAts2)
        by_cases hCt : C = t
        · subst hCt
          constructor
          · simp only [runSeries, if_neg hf]
            exact List.mem_cons_self _ _
          · exact hf
        · have hCmem : C ∈ ts2 := by
            rcases List.mem_cons.mp hC with h | h
            · exact absurd h hCt
            · exact h
          have hlt2 : idx C ts2 < idx A ts2 := by
            rw [idx_cons_ne ts2 (Ne.symm hAt), idx_cons_ne ts2 (Ne.symm hCt)] at hlt
            omega
          obtain ⟨hmem, hne⟩ := ih hnd2 hA2 C hCmem hlt2
          constructor
          · simp only [runSeries, if_neg hf]
            exact List.mem_cons_of_mem _ hmem
          · exact hne

lemma seriesTrace_wellSeq (act : TaskName → ActResult) :
    ∀ ts : List TaskName, WellSeq (seriesTrace act ts) := by
  intro ts
  induction ts with
  | nil => exact WellSeq.nil
  | cons t ts2 ih =>
      simp only [seriesTrace]
      by_cases hf : act t = ActResult.failure
      · rw [if_pos hf]
        exact WellSeq.block _ _ _ WellSeq.nil
      · rw [if_neg hf]
        exact WellSeq.block _ _ _ ih

lemma startedTasks_all {act : TaskName → ActResult}
    (h : ∀ t, act t ≠ ActResult.failure) :
    ∀ ts : List TaskName, startedTasks (seriesTrace act ts) = ts := by
  intro ts
  induction ts with
  | nil => rfl
  | cons t ts2 ih =>
      simp only [seriesTrace, if_neg (h t)]
      simp only [startedTasks, List.filterMap_cons]
      simp only [startedTasks] at ih
      rw [ih]

lemma digit_dash_notin_toks {c : Char} (h : c.isDigit = true ∨ c = Char.ofNat 45) :
    c ∉ dateTok ∧ c ∉ verTok := by
  have hdt : dateTok = ['@', '@', 'd', 'a', 't', 'e'] := rfl
  have hvt : verTok = ['@', '@', 'v', 'e', 'r', 's', 'i', 'o', 'n'] := rfl
  constructor
  · intro hm
    rw [hdt] at hm
    simp only [List.mem_cons, List.not_mem_nil, or_false] at hm
    rcases hm with rfl | rfl | rfl | rfl | rfl | rfl <;> revert h <;> decide
  · intro hm
    rw [hvt] at hm
    simp only [List.mem_cons, List.not_mem_nil, or_false] at hm
    rcases hm with rfl | rfl | rfl | rfl | rfl | rfl | rfl | rfl | rfl <;>
      revert h <;> decide

lemma yyyymmdd_digit_dash {d : List Char} (h : isYyyyMmDd d = true) :
    d ≠ [] ∧ ∀ c ∈ d, c.isDigit = true ∨ c = Char.ofNat 45 := by
  cases d with
  | nil => simp [isYyyyMmDd] at h
  | cons x0 d =>
  cases d with
  | nil => simp [isYyyyMmDd] at h
  | cons x1 d =>
  cases d with
  | nil => simp [isYyyyMmDd] at h
  | cons x2 d =>
  cases d with
  | nil => simp [isYyyyMmDd] at h
  | cons x3 d =>
  cases d with
  | nil => simp [isYyyyMmDd] at h
  | cons x4 d =>
  cases d with
  | nil => simp [isYyyyMmDd] at h
  | cons x5 d =>
  cases d with
  | nil => simp [isYyyyMmDd] at h
  | cons x6 d =>
  cases d with
  | nil => simp [isYyyyMmDd] at h
  | cons x7 d =>
  cases d with
  | nil => simp [isYyyyMmDd] at h
  | cons x8 d =>
  cases d with
  | nil => simp [isYyyyMmDd] at h
  | cons x9 d =>
  cases d with
  | cons x10 d => simp [isYyyyMmDd] at h
  | nil =>
      simp only [isYyyyMmDd, Bool.and_eq_true, decide_eq_true_eq] at h
      refine ⟨by simp, ?_⟩
      intro c hc
      simp only [List.mem_cons, List.not_mem_nil, or_false] at hc
      rcases hc with rfl | rfl | rfl | rfl | rfl | rfl | rfl | rfl | rfl | rfl <;> tauto

/-! # Claim theorems -/

/-- Claim C1: a one-shot invocation executes the eight pipeline tasks
strictly in the order bundle, compile (transpile), writeBanner,
generateEntryFiles, addDeprecatedFunctions (patch-deprecated-symbols),
minify, validate (validate-docs), generateDocs, each task starting only
after the previous one reached a terminal state (the trace is a chain of
start-finish blocks). -/
theorem default_pipeline_order (act : TaskName → ActResult)
    (h : ∀ t, act t ≠ ActResult.failure) :
    defaultTasks =
      [TaskName.bundle, TaskName.compile, TaskName.writeBanner,
       TaskName.generateEntryFiles, TaskName.addDeprecatedFunctions,
       TaskName.minify, TaskName.validate, TaskName.generateDocs] ∧
    startedTasks (seriesTrace act defaultTasks) = defaultTasks ∧
    WellSeq (seriesTrace act defaultTasks) :=
  ⟨rfl, startedTasks_all h defaultTasks, seriesTrace_wellSeq act defaultTasks⟩

/-- Witness for C1 at the all-success action assignment. -/
theorem default_pipeline_order_witness :
    (∀ t, actS t ≠ ActResult.failure) ∧
    (defaultTasks =
      [TaskName.bundle, TaskName.compile, TaskName.writeBanner,
       TaskName.generateEntryFiles, TaskName.addDeprecatedFunctions,
       TaskName.minify, TaskName.validate, TaskName.generateDocs] ∧
    startedTasks (seriesTrace actS defaultTasks) = defaultTasks ∧
    WellSeq (seriesTrace actS defaultTasks)) :=
  ⟨fun _ hf => ActResult.noConfusion hf,
   default_pipeline_order actS (fun _ hf => ActResult.noConfusion hf)⟩

/-- Claim C2: when a task A of the default pipeline fails, every task
that transitively depends on A (in the series chain: every task
registered after A) ends with the terminal outcome Skipped, distinct
from Failure, and every task with no dependency path to A (registered
before A) reaches a terminal non-Skipped outcome. -/
theorem default_pipeline_partial_failure (act : TaskName → ActResult) (A : TaskName)
    (hA : (A, Outcome.failure) ∈ runSeries act defaultTasks) :
    (∀ B ∈ defaultTasks, dependsOnDefault B A →
        (B, Outcome.skipped) ∈ runSeries act defaultTasks) ∧
    (∀ C ∈ defaultTasks, ¬ dependsOnDefault C A → C ≠ A →
        ∃ o, (C, o) ∈ runSeries act defaultTasks ∧ o ≠ Outcome.skipped) := by
  have hnd : defaultTasks.Nodup := by decide
  constructor
  · intro B hB hdep
    exact runSeries_skipped hnd hA B hB hdep
  · intro C hC hndep hne
    have hinj : ∀ x y : TaskName,
        idx x defaultTasks = idx y defaultTasks → x = y := by decide
    have h1 : ¬ idx A defaultTasks < idx C defaultTasks := hndep
    have h2 : idx C defaultTasks ≠ idx A defaultTasks :=
      fun he => hne (hinj C A he)
    have hCA : idx C defaultTasks < idx A defaultTasks := by omega
    obtain ⟨hmem, _⟩ := runSeries_before hnd hA C hC hCA
    exact ⟨toOutcome (act C), hmem, toOutcome_ne_skipped _⟩

/-- Witness for C2 at the action assignment where minify fails: later
tasks are Skipped, earlier tasks keep non-Skipped outcomes. -/
theorem default_pipeline_partial_failure_witness :
    ((TaskName.minify, Outcome.failure) ∈ runSeries actW defaultTasks) ∧
    ((∀ B ∈ defaultTasks, dependsOnDefault B TaskName.minify →
        (B, Outcome.skipped) ∈ runSeries actW defaultTasks) ∧
     (∀ C ∈ defaultTasks, ¬ dependsOnDefault C TaskName.minify →
        C ≠ TaskName.minify →
        ∃ o, (C, o) ∈ runSeries actW defaultTasks ∧ o ≠ Outcome.skipped)) :=
  ⟨by decide, default_pipeline_partial_failure actW TaskName.minify (by decide)⟩

/-- Claim C6: while the watch loop is alive, a filesystem event on the
generated version artifact is in the ignored set and is never classified
as a change event: it leaves the watch state unchanged, so it can never
re-enter Debouncing. -/
theorem version_artifact_excluded_from_watch :
    watchIgnored versionPath = true ∧
    ∀ s : WState, watchStep s (WEvent.fsEvent versionPath) = s := by
  have h : watchIgnored versionPath = true := by decide
  refine ⟨h, ?_⟩
  intro s
  simp [watchStep, h]

/-- Claim C7: each watch trigger re-runs exactly the subset
bundle, compile (transpile), addDeprecatedFunctions
(patch-deprecated-symbols) and no other task, and the watch controller
never terminates on its own: the stopped state is reached only from the
stopped state or by the external stop event. -/
theorem watch_subset_and_never_exits :
    watchSubset =
      [TaskName.bundle, TaskName.compile, TaskName.addDeprecatedFunctions] ∧
    TaskName.minify ∉ watchSubset ∧
    TaskName.validate ∉ watchSubset ∧
    TaskName.generateDocs ∉ watchSubset ∧
    TaskName.writeBanner ∉ watchSubset ∧
    TaskName.generateEntryFiles ∉ watchSubset ∧
    (∀ (s : WState) (e : WEvent),
        watchStep s e = WState.stopped ↔
        (s = WState.stopped ∨ e = WEvent.externalStop)) := by
  refine ⟨rfl, by decide, by decide, by decide, by decide, by decide, ?_⟩
  intro s e
  cases e with
  | fsEvent p =>
      by_cases hig : watchIgnored p = true
      · cases s <;> simp [watchStep, hig]
      · have hig2 : watchIgnored p = false := by
          cases hq : watchIgnored p
          · rfl
          · exact absurd hq hig
        cases s <;> simp [watchStep, hig2]
  | subscribe => cases s <;> simp [watchStep]
  | quietElapsed => cases s <;> simp [watchStep]
  | runComplete =>
      cases s with
      | idle => simp [watchStep]
      | watching => simp [watchStep]
      | debouncing => simp [watchStep]
      | stopped => simp [watchStep]
      | triggering q => cases q <;> simp [watchStep]
  | externalStop => cases s <;> simp [watchStep]

/-- Claim C9: the minify task restores the process working directory on
every exit path, including the paths where the minifier reports an error
or a write throws: the finally clause runs chdir back to the saved
directory; and the failure is still reported. -/
theorem minify_restores_cwd :
    (∀ (dist : List Char) (uErr wMin wMap : Bool) (st : Sys),
        (minifyTask dist uErr wMin wMap st).2.cwd = st.cwd) ∧
    (∀ (dist : List Char) (wMin wMap : Bool) (st : Sys),
        (minifyTask dist true wMin wMap st).1 = Except.error MinifyErr.uglifyErr) ∧
    (∀ (dist : List Char) (wMap : Bool) (st : Sys),
        (minifyTask dist false true wMap st).1 = Except.error MinifyErr.writeMinErr) ∧
    (∀ (dist : List Char) (st : Sys),
        (minifyTask dist false false false st).1 = Except.ok ()) := by
  refine ⟨?_, ?_, ?_, ?_⟩
  · intro dist uErr wMin wMap st
    rfl
  · intro dist wMin wMap st
    rfl
  · intro dist wMap st
    rfl
  · intro dist st
    rfl

/-- Claim C10: the patch-deprecated-symbols task rewrites the compiled
entry file to exactly its prior content followed by a blank separator
and the four alias export statements for var, typeof, eval and import;
the prior content is an unchanged prefix, and applying the task twice
appends the four statements twice, so the task is not idempotent. -/
theorem addDeprecated_appends_aliases :
    (∀ code : List Char,
        addDeprecatedFunctions code = code ++ [nlC, nlC] ++
          (aliasLine (strL "var") (strL "deprecatedVar") ++
           aliasLine (strL "typeof") (strL "deprecatedTypeof") ++
           aliasLine (strL "eval") (strL "deprecatedEval") ++
           aliasLine (strL "import") (strL "deprecatedImport"))) ∧
    (∀ code : List Char, Pre code (addDeprecatedFunctions code)) ∧
    (∀ code : List Char,
        addDeprecatedFunctions (addDeprecatedFunctions code) =
          code ++ [nlC, nlC] ++ deprecatedSuffix ++ [nlC, nlC] ++ deprecatedSuffix) ∧
    (∀ code : List Char,
        addDeprecatedFunctions (addDeprecatedFunctions code) ≠
          addDeprecatedFunctions code) := by
  refine ⟨?_, ?_, ?_, ?_⟩
  · intro code
    rfl
  · intro code
    refine ⟨[nlC, nlC] ++ deprecatedSuffix, ?_⟩
    simp [addDeprecatedFunctions, List.append_assoc]
  · intro code
    rfl
  · intro code
    intro he
    have hlen := congrArg List.length he
    simp [addDeprecatedFunctions, List.length_append] at hlen

/-- Claim C5 counterexample: a manifest that is valid structured data
but lacks the version field does not fail: getVersion returns the
undefined marker successfully, contradicting the claim that a missing
version field yields a ManifestReadError. -/
theorem getVersion_missing_field_counterexample :
    getVersion (Except.ok (strL "\x7b\x7d")) parseEmptyObj = Except.ok JsVal.undef ∧
    ∀ e : JsErr,
      getVersion (Except.ok (strL "\x7b\x7d")) parseEmptyObj ≠ Except.error e := by
  constructor
  · rfl
  · intro e he
    rw [show getVersion (Except.ok (strL "\x7b\x7d")) parseEmptyObj =
        Except.ok JsVal.undef from rfl] at he
    exact Except.noConfusion he

/-- Claim C5 amended: getVersion fails exactly when the manifest read
fails or the parse fails (or property access throws, on a null
manifest); a manifest that parses to an object yields the version field
value, and a missing field yields the undefined marker, not an error. -/
theorem getVersion_amended (readF : Except JsErr (List Char))
    (jsonParse : List Char → Except JsErr JsVal) :
    (∀ e, readF = Except.error e → getVersion readF jsonParse = Except.error e) ∧
    (∀ c e, readF = Except.ok c → jsonParse c = Except.error e →
        getVersion readF jsonParse = Except.error e) ∧
    (∀ c fs, readF = Except.ok c → jsonParse c = Except.ok (JsVal.jobj fs) →
        getVersion readF jsonParse = Except.ok (lookupField fs (strL "version"))) ∧
    (∀ c s, readF = Except.ok c → jsonParse c = Except.ok (JsVal.jprim s) →
        getVersion readF jsonParse = Except.ok JsVal.undef) ∧
    (∀ c, readF = Except.ok c → jsonParse c = Except.ok JsVal.jnull →
        getVersion readF jsonParse = Except.error JsErr.typeError) := by
  refine ⟨?_, ?_, ?_, ?_, ?_⟩
  · intro e he
    rw [he]
    rfl
  · intro c e h1 h2
    rw [h1]
    simp [getVersion, h2]
  · intro c fs h1 h2
    rw [h1]
    simp [getVersion, h2, getPropJS]
  · intro c s h1 h2
    rw [h1]
    simp [getVersion, h2, getPropJS]
  · intro c h1 h2
    rw [h1]
    simp [getVersion, h2, getPropJS]

/-- Witness for the amended C5 on the empty-object manifest. -/
theorem getVersion_amended_witness :
    getVersion (Except.ok (strL "\x7b\x7d")) parseEmptyObj =
      Except.ok (lookupField [] (strL "version")) :=
  (getVersion_amended (Except.ok (strL "\x7b\x7d")) parseEmptyObj).2.2.1
    (strL "\x7b\x7d") [] rfl rfl

/-- Claim C8 counterexample: a bundler result carrying one warning and
no errors makes the bundle task complete with outcome Success, not with
a distinct Warning outcome as the claim states. -/
theorem bundle_warnings_only_counterexample :
    bundleOutcome none [strL "w"] [] = Outcome.success ∧
    bundleOutcome none [strL "w"] [] ≠ Outcome.warning := by
  constructor
  · rfl
  · decide

/-- Claim C8 amended: with warnings only the bundle task succeeds (the
outcome is Success, never a Warning outcome) while the joined warnings
are logged verbatim; with at least one error the outcome is Failure and
the joined errors are logged verbatim. -/
theorem bundle_diagnostics_amended (w e : List (List Char)) :
    (e = [] → bundleOutcome none w e = Outcome.success) ∧
    (bundleOutcome none w e ≠ Outcome.warning) ∧
    (e ≠ [] → bundleOutcome none w e = Outcome.failure) ∧
    (w ≠ [] → (strL "Webpack warnings:" ++ [nlC] ++ joinNL w) ∈ bundleLogs none w e) ∧
    (e ≠ [] → (strL "Webpack errors:" ++ [nlC] ++ joinNL e) ∈ bundleLogs none w e) := by
  refine ⟨?_, ?_, ?_, ?_, ?_⟩
  · intro he
    simp [bundleOutcome, he]
  · by_cases he : e = [] <;> simp [bundleOutcome, he]
  · intro he
    simp [bundleOutcome, he]
  · intro hw
    by_cases he : e = [] <;> simp [bundleLogs, hw, he]
  · intro he
    by_cases hw : w = [] <;> simp [bundleLogs, hw, he]

/-- Witness for the amended C8: an error-only result fails with the
errors logged, and a warnings-only result succeeds with the warnings
logged. -/
theorem bundle_diagnostics_amended_witness :
    bundleOutcome none [] [strL "boom"] = Outcome.failure ∧
    ((strL "Webpack errors:" ++ [nlC] ++ joinNL [strL "boom"]) ∈
      bundleLogs none [] [strL "boom"]) ∧
    bundleOutcome none [strL "w"] [] = Outcome.success ∧
    ((strL "Webpack warnings:" ++ [nlC] ++ joinNL [strL "w"]) ∈
      bundleLogs none [strL "w"] []) := by
  have h1 := bundle_diagnostics_amended [] [strL "boom"]
  have h2 := bundle_diagnostics_amended [strL "w"] []
  exact ⟨h1.2.2.1 (by decide), h1.2.2.2.2 (by decide), h2.1 rfl,
    h2.2.2.2.1 (by decide)⟩

/-- Claim C3: for a template containing the two placeholder tokens,
banner rendering substitutes the date token and the version token
exactly once each (the output is the input with one splice per token and
nothing else changed), the result is the same regardless of which of the
two substitutions is applied first, and re-applying the rendering to any
output without remaining tokens is the identity.  The date and version
values are parameters constrained not to contain placeholder
characters, as the actual date and semantic version strings are. -/
theorem createBanner_substitution (t d v : List Char)
    (hd : d ≠ [] ∧ ∀ c ∈ d, c ∉ dateTok ∧ c ∉ verTok)
    (hv : v ≠ [] ∧ ∀ c ∈ v, c ∉ dateTok ∧ c ∉ verTok)
    (h1 : occursB dateTok t = true) (h2 : occursB verTok t = true) :
    (∃ a m b,
      (t = a ++ (dateTok ++ (m ++ (verTok ++ b))) ∧
       createBanner t d v = a ++ (d ++ (m ++ (v ++ b)))) ∨
      (t = a ++ (verTok ++ (m ++ (dateTok ++ b))) ∧
       createBanner t d v = a ++ (v ++ (m ++ (d ++ b))))) ∧
    replaceFirst verTok v (replaceFirst dateTok d t) =
      replaceFirst dateTok d (replaceFirst verTok v t) ∧
    (∀ s, occursB dateTok s = false → occursB verTok s = false →
        createBanner s d v = s) := by
  have hsep1 : SepAt verTok dateTok := sepB_to (by decide)
  have hsep2 : SepAt dateTok verTok := sepB_to (by decide)
  have hdd : dateTok ≠ [] := by decide
  have hvv : verTok ≠ [] := by decide
  refine ⟨?_, ?_, ?_⟩
  · simp only [createBanner]
    exact @renderDecomp dateTok d verTok v t hvv hd.1
      (fun c hc => (hd.2 c hc).2) hsep1 hsep2 h1 h2
  · exact rf_comm hdd hvv hd.1 hv.1 (fun c hc => (hd.2 c hc).2)
      (fun c hc => (hv.2 c hc).1) hsep1 hsep2 t
  · intro s hs1o hs2o
    simp only [createBanner]
    rw [rf_not_occ hs1o, rf_not_occ hs2o]

/-- Witness for C3: order independence of the two substitutions on a
concrete template with the concrete values of the spec. -/
theorem createBanner_substitution_witness :
    replaceFirst verTok (strL "1.2.3")
        (replaceFirst dateTok (strL "2024-01-01")
          (strL "// math.js @@version @@date")) =
      replaceFirst dateTok (strL "2024-01-01")
        (replaceFirst verTok (strL "1.2.3")
          (strL "// math.js @@version @@date")) :=
  (createBanner_substitution (strL "// math.js @@version @@date")
      (strL "2024-01-01") (strL "1.2.3") ⟨by decide, by decide⟩
      ⟨by decide, by decide⟩ (by decide) (by decide)).2.1

/-- Claim C4: with the manifest version 9.9.9 and a template containing
the version and date tokens, the banner contains 9.9.9, contains the
current date (a yyyy-mm-dd string) in place of the date token, and the
version marker artifact starts with the statement exporting the string
9.9.9. -/
theorem runOnce_banner_version_artifacts (t d : List Char)
    (h1 : occursB dateTok t = true) (h2 : occursB verTok t = true)
    (hd : isYyyyMmDd d = true) :
    occursB (strL "9.9.9") (createBanner t d (strL "9.9.9")) = true ∧
    (∃ a m b,
      (t = a ++ (dateTok ++ (m ++ (verTok ++ b))) ∧
       createBanner t d (strL "9.9.9") = a ++ (d ++ (m ++ (strL "9.9.9" ++ b)))) ∨
      (t = a ++ (verTok ++ (m ++ (dateTok ++ b))) ∧
       createBanner t d (strL "9.9.9") = a ++ (strL "9.9.9" ++ (m ++ (d ++ b))))) ∧
    Pre (strL "export const version = " ++ [qC] ++ strL "9.9.9" ++ [qC])
      (versionFileContent (strL "9.9.9")) := by
  have hda := yyyymmdd_digit_dash hd
  have hdchars : ∀ c ∈ d, c ∉ dateTok ∧ c ∉ verTok :=
    fun c hc => digit_dash_notin_toks (hda.2 c hc)
  have hsep1 : SepAt verTok dateTok := sepB_to (by decide)
  have hsep2 : SepAt dateTok verTok := sepB_to (by decide)
  have hvv : verTok ≠ [] := by decide
  have hdecomp := @renderDecomp dateTok d verTok (strL "9.9.9") t hvv hda.1
    (fun c hc => (hdchars c hc).2) hsep1 hsep2 h1 h2
  refine ⟨?_, ?_, ?_⟩
  · obtain ⟨a, m, b, hcase⟩ := hdecomp
    rcases hcase with ⟨hta, hba⟩ | ⟨hta, hba⟩
    · simp only [createBanner]
      rw [hba, occursB_iff]
      exact ⟨a ++ d ++ m, b, by simp [List.append_assoc]⟩
    · simp only [createBanner]
      rw [hba, occursB_iff]
      exact ⟨a, m ++ (d ++ b), by simp [List.append_assoc]⟩
  · simp only [createBanner]
    exact hdecomp
  · refine ⟨[nlC] ++
      strL "// Note: This file is automatically generated when building math.js." ++
      [nlC] ++ strL "// Changes made in this file will be overwritten." ++ [nlC], ?_⟩
    simp [versionFileContent, List.append_assoc]

/-- Witness for C4 at a concrete template and a concrete date. -/
theorem runOnce_banner_version_artifacts_witness :
    (isYyyyMmDd (strL "2026-10-11") = true) ∧
    occursB (strL "9.9.9")
      (createBanner (strL "/*! math.js @@version @@date */")
        (strL "2026-10-11") (strL "9.9.9")) = true := by
  have h := runOnce_banner_version_artifacts
    (strL "/*! math.js @@version @@date */") (strL "2026-10-11")
    (by decide) (by decide) (by decide)
  exact ⟨by decide, h.1⟩
